import Mathlib

/-!
Verification development for the sparse binary distance computation
(`sparsebinarydistance/distance.py`, function `sparseDistance`).

The observation matrix is a cell x feature table whose entries are
Present (1), Absent (0) or Missing (NaN in the source).  The source keeps
the working matrix as a pandas sub-DataFrame of the input; here the input
matrix is a rectangular list of rows over a tri-state entry type, and the
working matrix is represented by the pair of retained original row and
column indices, in order.  All discrete parts (filtering, counting) are
computable; the weight and matrix values live in the reals because the
source computes with log2.
-/

/-- Entry of the observation matrix: the source uses 1, 0 and NaN. -/
inductive Entry where
  | present
  | absent
  | missing
deriving DecidableEq, Repr

/-- Matrix of the source: a list of rows, each a list of entries. -/
abbrev Mat := List (List Entry)

/-- Working-matrix state: the retained original row indices and the
retained original column indices, each kept in increasing input order,
mirroring how restriction of a pandas DataFrame preserves label order. -/
abbrev FState := List Nat × List Nat

/-- Test for the source comparison `x == 1` on a tri-state value. -/
def isOne : Entry → Bool
  | .present => true
  | _ => false

/-- Test for the source comparison `x == 0` on a tri-state value. -/
def isZero : Entry → Bool
  | .absent => true
  | _ => false

/-- Test for the source comparison `x >= 0`, true exactly on measured
(non-missing) values: NaN compares false, 1 and 0 compare true. -/
def isMeasured : Entry → Bool
  | .missing => false
  | _ => true

/-- Entry of the input matrix at original row i and column j; out of
range positions read as missing (the claims only touch in-range ones). -/
def entry (X : Mat) (i j : Nat) : Entry :=
  (X.getD i []).getD j Entry.missing

/-- Number of rows of the input matrix. -/
def nrows (X : Mat) : Nat := X.length

/-- Number of columns of the (rectangular) input matrix. -/
def ncols (X : Mat) : Nat := (X.headD []).length

/-- Initial state: all rows and all columns of the input are retained. -/
def fullState (X : Mat) : FState :=
  (List.range (nrows X), List.range (ncols X))

/-- Count of measured entries of row i over the retained columns: the
source expression `(keptX >= 0).sum(axis=1)` for one row. -/
def rowMeasCount (X : Mat) (cols : List Nat) (i : Nat) : Nat :=
  (cols.filter (fun j => isMeasured (entry X i j))).length

/-- Count of Present entries of column j over the retained rows: the
source expression `(keptX[selectedCells] == 1).sum(axis=0)` for one
column. -/
def colOnesCount (X : Mat) (rows : List Nat) (j : Nat) : Nat :=
  (rows.filter (fun i => isOne (entry X i j))).length

/-- Count of Absent entries of column j over the retained rows: the
source expression `(keptX[selectedCells] == 0).sum(axis=0)` for one
column. -/
def colZerosCount (X : Mat) (rows : List Nat) (j : Nat) : Nat :=
  (rows.filter (fun i => isZero (entry X i j))).length

/-- One iteration of the filtering loop body (source lines 42-46):
`selectedCells` keeps the rows with at least minMeasurementsPerCell
measured entries over the current columns, then `selectedColumns` keeps
the columns which, restricted to the just selected rows, have at least
minPresence Present entries and more than zero Absent entries, and the
working matrix is restricted to the selection. -/
def filterStep (X : Mat) (minPresence minMeasurementsPerCell : Nat) (st : FState) : FState :=
  let selectedCells := st.1.filter (fun i =>
    decide (minMeasurementsPerCell ≤ rowMeasCount X st.2 i))
  let selectedColumns := st.2.filter (fun j =>
    decide (minPresence ≤ colOnesCount X selectedCells j)
      && decide (0 < colZerosCount X selectedCells j))
  (selectedCells, selectedColumns)

/-- Fuel-indexed iteration of `filterStep` until the retained row count
and the retained column count both stop changing, which is the source
loop condition `prev[0] != sum(selectedCells) or prev[1] != sum(selectedColumns)`.
The fuel only makes the recursion structural; it is chosen large enough
that the zero case is never reached (see `filterFixFuel_fixed`). -/
def filterFixFuel (X : Mat) (mp mmc : Nat) : Nat → FState → FState
  | 0, st => st
  | n + 1, st =>
    if (filterStep X mp mmc st).1.length = st.1.length
        ∧ (filterStep X mp mmc st).2.length = st.2.length then filterStep X mp mmc st
    else filterFixFuel X mp mmc n (filterStep X mp mmc st)

/-- Filtering fixed point reached by the source while loop.  The source
runs the body once unconditionally (prev is None) and from then on exits
as soon as the row and column counts of consecutive selections agree;
since each selection is a sublist of the matrix it was computed on, equal
counts mean the last restriction changed nothing, so the loop value is
the first iterate whose further filtering is the identity, which is what
this definition computes. -/
def filterFix (X : Mat) (mp mmc : Nat) (st : FState) : FState :=
  filterFixFuel X mp mmc (st.1.length + st.2.length + 1) st

/-- Fuel-indexed count of the remaining loop iterations, starting from a
state that the loop has already restricted once: each call is one more
execution of the source loop body, and the body after which the counts
agree is the last one counted. -/
def loopItersAux (X : Mat) (mp mmc : Nat) : Nat → FState → Nat
  | 0, _ => 0
  | n + 1, st =>
    if (filterStep X mp mmc st).1.length = st.1.length
        ∧ (filterStep X mp mmc st).2.length = st.2.length then 1
    else 1 + loopItersAux X mp mmc n (filterStep X mp mmc st)

/-- Total number of executions of the source while-loop body on input X:
the first body execution always runs because prev is None, and the later
ones are counted by `loopItersAux` from the once-restricted state. -/
def loopIters (X : Mat) (mp mmc : Nat) : Nat :=
  1 + loopItersAux X mp mmc
    ((filterStep X mp mmc (fullState X)).1.length
      + (filterStep X mp mmc (fullState X)).2.length + 1)
    (filterStep X mp mmc (fullState X))

/-- Indicator of a boolean as a real number, the value numpy gives a
comparison result inside an arithmetic expression. -/
def bInd (b : Bool) : ℝ := if b then 1 else 0

/-- Weight pOnes of one feature (source lines 56 and 60): with weighting
enabled it is -log2((count of ones / number of retained rows)^2), the
fraction being taken over all retained rows including missing entries;
without weighting it is -log2(0.5^2). -/
noncomputable def pOneAt (X : Mat) (rows : List Nat) (wt : Bool) (j : Nat) : ℝ :=
  if wt then
    -Real.logb 2 (((colOnesCount X rows j : ℝ) / (rows.length : ℝ)) ^ 2)
  else
    -Real.logb 2 ((1 / 2 : ℝ) ^ 2)

/-- Weight pZeros of one feature (source lines 57 and 61), as `pOneAt`
with the count of zeros in place of the count of ones. -/
noncomputable def pZeroAt (X : Mat) (rows : List Nat) (wt : Bool) (j : Nat) : ℝ :=
  if wt then
    -Real.logb 2 (((colZerosCount X rows j : ℝ) / (rows.length : ℝ)) ^ 2)
  else
    -Real.logb 2 ((1 / 2 : ℝ) ^ 2)

/-- Entry of the filtered matrix `rawMatrix` at positional row i and
original column index f: positional row i is the i-th retained original
row index. -/
def entryAt (X : Mat) (st : FState) (i f : Nat) : Entry :=
  entry X (st.1.getD i 0) f

/-- Sum of the unnormalized pairwise distance vector (source lines 89-91):
a feature contributes pOnes + pZeros when one cell is Present and the
other Absent, in either orientation, and contributes nothing when either
side is missing. -/
noncomputable def rawDistAt (X : Mat) (st : FState) (wt : Bool) (i j : Nat) : ℝ :=
  (st.2.map (fun f =>
    bInd (isOne (entryAt X st i f) && isZero (entryAt X st j f))
        * (pOneAt X st.1 wt f + pZeroAt X st.1 wt f)
      + bInd (isZero (entryAt X st i f) && isOne (entryAt X st j f))
        * (pZeroAt X st.1 wt f + pOneAt X st.1 wt f))).sum

/-- Pairwise normalization factor (source lines 93-94): the pOnes weight
of every feature Present in either cell plus the pZeros weight of every
feature Absent in either cell, one summand per side, missing entries
contributing nothing. -/
noncomputable def normFactorAt (X : Mat) (st : FState) (wt : Bool) (i j : Nat) : ℝ :=
  (st.2.map (fun f => pOneAt X st.1 wt f * bInd (isOne (entryAt X st i f)))).sum
    + (st.2.map (fun f => pZeroAt X st.1 wt f * bInd (isZero (entryAt X st i f)))).sum
    + (st.2.map (fun f => pOneAt X st.1 wt f * bInd (isOne (entryAt X st j f)))).sum
    + (st.2.map (fun f => pZeroAt X st.1 wt f * bInd (isZero (entryAt X st j f)))).sum

/-- Normalized pairwise distance (source lines 96-97). -/
noncomputable def diffValAt (X : Mat) (st : FState) (wt : Bool) (i j : Nat) : ℝ :=
  rawDistAt X st wt i j / normFactorAt X st wt i j

/-- Normalized pairwise similarity (source lines 101-105): twice the
pOnes weight summed over features Present in both cells plus twice the
pZeros weight summed over features Absent in both cells, divided by the
same normalization factor. -/
noncomputable def simValAt (X : Mat) (st : FState) (wt : Bool) (i j : Nat) : ℝ :=
  ((st.2.map (fun f =>
      (pOneAt X st.1 wt f + pOneAt X st.1 wt f)
        * bInd (isOne (entryAt X st i f) && isOne (entryAt X st j f)))).sum
    + (st.2.map (fun f =>
      (pZeroAt X st.1 wt f + pZeroAt X st.1 wt f)
        * bInd (isZero (entryAt X st i f) && isZero (entryAt X st j f)))).sum)
    / normFactorAt X st wt i j

/-- Joint pairwise score (source line 108): normalized distance plus one
minus normalized similarity. -/
noncomputable def jointValAt (X : Mat) (st : FState) (wt : Bool) (i j : Nat) : ℝ :=
  diffValAt X st wt i j + (1 - simValAt X st wt i j)

/-- Returned difference matrix: `np.zeros((n, n))` written only at the
pairs visited by the nested loop, namely row index cai below n and
column index cbi up to cai because the inner loop breaks after the
diagonal; it is never mirrored. -/
noncomputable def diffM (X : Mat) (st : FState) (wt : Bool) (i j : Nat) : ℝ :=
  if i < st.1.length ∧ j ≤ i then diffValAt X st wt i j else 0

/-- Returned similarity matrix: zero-initialized, written only on the
lower triangle including the diagonal, never mirrored. -/
noncomputable def simM (X : Mat) (st : FState) (wt : Bool) (i j : Nat) : ℝ :=
  if i < st.1.length ∧ j ≤ i then simValAt X st wt i j else 0

/-- Joint matrix before the mirroring pass: zero-initialized and written
on the lower triangle including the diagonal. -/
noncomputable def jointPre (X : Mat) (st : FState) (wt : Bool) (i j : Nat) : ℝ :=
  if i < st.1.length ∧ j ≤ i then jointValAt X st wt i j else 0

/-- Joint matrix after the mirroring pass (source lines 114-118): for
every i below n and j up to i the entry at (j, i) is overwritten with the
entry at (i, j), so a position on or above the diagonal holds the value
computed at its transpose and a position strictly below keeps its own. -/
noncomputable def jointM (X : Mat) (st : FState) (wt : Bool) (i j : Nat) : ℝ :=
  if i < st.1.length ∧ j < st.1.length then
    if i ≤ j then jointPre X st wt j i else jointPre X st wt i j
  else 0

/-- Sequence of (cai, cbi) pairs visited by the nested loop of source
lines 84-112: cai ranges over all rows and cbi runs from 0 and breaks
right after reaching cai. -/
def pairList : Nat → List (Nat × Nat)
  | 0 => []
  | n + 1 => pairList n ++ (List.range (n + 1)).map (fun j => (n, j))

/-- Value held by the source variable `normalisationFactor` after the
nested loop: the loop body overwrites it at every visited pair, so the
value that survives is the one of the last visited pair.  The fold start
value 0 is irrelevant on the return path because at least two rows are
retained there, so the pair sequence is nonempty. -/
noncomputable def lastNorm (X : Mat) (st : FState) (wt : Bool) : ℝ :=
  (pairList st.1.length).foldl (fun _ p => normFactorAt X st wt p.1 p.2) 0

/-- Embedding of `sparseDistance` (source lines 5-130): run the
filtering loop from the full input, raise ValueError("Not enough data")
when fewer than two rows remain, and otherwise return the filtered
matrix, the mirrored joint matrix, the similarity matrix, the difference
matrix and the leftover scalar normalization value. -/
noncomputable def sparseDistance (X : Mat) (minPresence minMeasurementsPerCell : Nat)
    (weight : Bool) :
    Except String (FState × (Nat → Nat → ℝ) × (Nat → Nat → ℝ) × (Nat → Nat → ℝ) × ℝ) :=
  let keptX := filterFix X minPresence minMeasurementsPerCell (fullState X)
  if keptX.1.length < 2 then Except.error "Not enough data"
  else Except.ok
    (keptX, jointM X keptX weight, simM X keptX weight, diffM X keptX weight,
      lastNorm X keptX weight)

/-! Basic facts about one filtering iteration. -/

/-- First component of one filtering iteration: the row selection. -/
theorem filterStep_fst (X : Mat) (mp mmc : Nat) (st : FState) :
    (filterStep X mp mmc st).1
      = st.1.filter (fun i => decide (mmc ≤ rowMeasCount X st.2 i)) := rfl

/-- Second component of one filtering iteration: the column selection,
computed over the rows selected in the same iteration. -/
theorem filterStep_snd (X : Mat) (mp mmc : Nat) (st : FState) :
    (filterStep X mp mmc st).2
      = st.2.filter (fun j =>
          decide (mp ≤ colOnesCount X (filterStep X mp mmc st).1 j)
            && decide (0 < colZerosCount X (filterStep X mp mmc st).1 j)) := rfl

/-- Row selection of a filtering iteration is a sublist of the rows it
was computed on. -/
theorem filterStep_fst_sublist (X : Mat) (mp mmc : Nat) (st : FState) :
    (filterStep X mp mmc st).1.Sublist st.1 := by
  rw [filterStep_fst]
  exact List.filter_sublist st.1

/-- Column selection of a filtering iteration is a sublist of the
columns it was computed on. -/
theorem filterStep_snd_sublist (X : Mat) (mp mmc : Nat) (st : FState) :
    (filterStep X mp mmc st).2.Sublist st.2 := by
  rw [filterStep_snd]
  exact List.filter_sublist st.2

/-- When an iteration keeps the row count and the column count, it kept
the rows and columns themselves: the loop exit condition detects a true
fixed point. -/
theorem filterStep_eq_self (X : Mat) (mp mmc : Nat) (st : FState)
    (h1 : (filterStep X mp mmc st).1.length = st.1.length)
    (h2 : (filterStep X mp mmc st).2.length = st.2.length) :
    filterStep X mp mmc st = st := by
  have hr : (filterStep X mp mmc st).1 = st.1 :=
    (filterStep_fst_sublist X mp mmc st).eq_of_length h1
  have hc : (filterStep X mp mmc st).2 = st.2 :=
    (filterStep_snd_sublist X mp mmc st).eq_of_length h2
  exact Prod.ext hr hc

/-- With fuel exceeding the total number of retained rows and columns,
the fuel-indexed loop lands on a state that one more filtering iteration
leaves unchanged. -/
theorem filterFixFuel_fixed (X : Mat) (mp mmc : Nat) :
    ∀ n st, st.1.length + st.2.length < n →
      filterStep X mp mmc (filterFixFuel X mp mmc n st)
        = filterFixFuel X mp mmc n st := by
  intro n
  induction n with
  | zero => exact fun st h => absurd h (Nat.not_lt_zero _)
  | succ n ih =>
    intro st h
    rw [filterFixFuel]
    by_cases hc : (filterStep X mp mmc st).1.length = st.1.length
        ∧ (filterStep X mp mmc st).2.length = st.2.length
    · rw [if_pos hc]
      have he := filterStep_eq_self X mp mmc st hc.1 hc.2
      rw [he]
      exact he
    · rw [if_neg hc]
      apply ih
      have l1 : (filterStep X mp mmc st).1.length ≤ st.1.length :=
        (filterStep_fst_sublist X mp mmc st).length_le
      have l2 : (filterStep X mp mmc st).2.length ≤ st.2.length :=
        (filterStep_snd_sublist X mp mmc st).length_le
      omega

/-- The filtering fixed point really is fixed: one more iteration of the
loop body changes nothing. -/
theorem filterFix_fixed (X : Mat) (mp mmc : Nat) (st : FState) :
    filterStep X mp mmc (filterFix X mp mmc st) = filterFix X mp mmc st :=
  filterFixFuel_fixed X mp mmc _ st (Nat.lt_succ_self _)

/-- Row invariant at the fixed point: every retained row has at least
minMeasurementsPerCell measured entries over the retained columns. -/
theorem filterFix_rows_inv (X : Mat) (mp mmc : Nat) (st : FState) :
    ∀ i ∈ (filterFix X mp mmc st).1,
      mmc ≤ rowMeasCount X (filterFix X mp mmc st).2 i := by
  intro i hi
  have hfix := filterFix_fixed X mp mmc st
  have h1 := congrArg Prod.fst hfix
  rw [filterStep_fst] at h1
  exact of_decide_eq_true (List.filter_eq_self.mp h1 i hi)

/-- Column invariant at the fixed point: every retained column has,
over the retained rows, at least minPresence Present entries and at
least one Absent entry. -/
theorem filterFix_cols_inv (X : Mat) (mp mmc : Nat) (st : FState) :
    ∀ j ∈ (filterFix X mp mmc st).2,
      mp ≤ colOnesCount X (filterFix X mp mmc st).1 j
        ∧ 0 < colZerosCount X (filterFix X mp mmc st).1 j := by
  intro j hj
  have hfix := filterFix_fixed X mp mmc st
  have h2 := congrArg Prod.snd hfix
  rw [filterStep_snd] at h2
  rw [hfix] at h2
  have hb := List.filter_eq_self.mp h2 j hj
  rw [Bool.and_eq_true] at hb
  exact ⟨of_decide_eq_true hb.1, of_decide_eq_true hb.2⟩

/-! Iteration counting and the loop bound. -/

/-- With sufficient fuel, the number of remaining loop body executions is
bounded by the current number of retained rows and columns plus one. -/
theorem loopItersAux_le (X : Mat) (mp mmc : Nat) :
    ∀ n st, st.1.length + st.2.length < n →
      loopItersAux X mp mmc n st ≤ st.1.length + st.2.length + 1 := by
  intro n
  induction n with
  | zero => exact fun st h => absurd h (Nat.not_lt_zero _)
  | succ n ih =>
    intro st h
    rw [loopItersAux]
    by_cases hc : (filterStep X mp mmc st).1.length = st.1.length
        ∧ (filterStep X mp mmc st).2.length = st.2.length
    · rw [if_pos hc]
      omega
    · rw [if_neg hc]
      have l1 : (filterStep X mp mmc st).1.length ≤ st.1.length :=
        (filterStep_fst_sublist X mp mmc st).length_le
      have l2 : (filterStep X mp mmc st).2.length ≤ st.2.length :=
        (filterStep_snd_sublist X mp mmc st).length_le
      have hlt : (filterStep X mp mmc st).1.length + (filterStep X mp mmc st).2.length
          < st.1.length + st.2.length := by omega
      have := ih (filterStep X mp mmc st) (by omega)
      omega

/-- Bound on the number of loop body executions: at most the number of
input rows plus the number of input columns plus two. -/
theorem loopIters_le (X : Mat) (mp mmc : Nat) :
    loopIters X mp mmc ≤ nrows X + ncols X + 2 := by
  rw [loopIters]
  have l1 : (filterStep X mp mmc (fullState X)).1.length ≤ nrows X := by
    have := (filterStep_fst_sublist X mp mmc (fullState X)).length_le
    simpa [fullState] using this
  have l2 : (filterStep X mp mmc (fullState X)).2.length ≤ ncols X := by
    have := (filterStep_snd_sublist X mp mmc (fullState X)).length_le
    simpa [fullState] using this
  have := loopItersAux_le X mp mmc
    ((filterStep X mp mmc (fullState X)).1.length
      + (filterStep X mp mmc (fullState X)).2.length + 1)
    (filterStep X mp mmc (fullState X)) (Nat.lt_succ_self _)
  omega

/-! Weight arithmetic. -/

/-- Value of log2 at the unweighted probability square 0.25. -/
theorem logb_two_quarter : Real.logb 2 ((1 / 2 : ℝ) ^ 2) = -2 := by
  have h4 : ((1 / 2 : ℝ) ^ 2) = ((2 : ℝ) ^ 2)⁻¹ := by norm_num
  have hl2 : Real.log 2 ≠ 0 := ne_of_gt (Real.log_pos one_lt_two)
  rw [h4, ← Real.log_div_log, Real.log_inv, Real.log_pow]
  push_cast
  field_simp

/-- Unweighted pOnes weight of every feature is the constant 2. -/
theorem pOneAt_unweighted (X : Mat) (rows : List Nat) (j : Nat) :
    pOneAt X rows false j = 2 := by
  show -Real.logb 2 ((1 / 2 : ℝ) ^ 2) = 2
  rw [logb_two_quarter]
  norm_num

/-- Unweighted pZeros weight of every feature is the constant 2. -/
theorem pZeroAt_unweighted (X : Mat) (rows : List Nat) (j : Nat) :
    pZeroAt X rows false j = 2 := by
  show -Real.logb 2 ((1 / 2 : ℝ) ^ 2) = 2
  rw [logb_two_quarter]
  norm_num

/-- Sum of the lengths of two filters by incompatible predicates is at
most the length of the list. -/
theorem filter_length_add_le {α : Type} (l : List α) (p q : α → Bool)
    (h : ∀ a, ¬(p a = true ∧ q a = true)) :
    (l.filter p).length + (l.filter q).length ≤ l.length := by
  induction l with
  | nil => simp
  | cons a t ih =>
    by_cases hp : p a = true
    · by_cases hq : q a = true
      · exact absurd ⟨hp, hq⟩ (h a)
      · rw [List.filter_cons, List.filter_cons, if_pos hp, if_neg hq]
        simp only [List.length_cons]
        omega
    · by_cases hq : q a = true
      · rw [List.filter_cons, List.filter_cons, if_neg hp, if_pos hq]
        simp only [List.length_cons]
        omega
      · rw [List.filter_cons, List.filter_cons, if_neg hp, if_neg hq]
        simp only [List.length_cons]
        omega

/-- A column has at most as many Present plus Absent entries as there
are retained rows. -/
theorem colCounts_le (X : Mat) (rows : List Nat) (j : Nat) :
    colOnesCount X rows j + colZerosCount X rows j ≤ rows.length := by
  apply filter_length_add_le
  intro i
  cases entry X i j <;> simp [isOne, isZero]

/-- Positivity of the pOnes weight of a feature with at least one
Present and at least one Absent entry among the retained rows. -/
theorem pOneAt_pos (X : Mat) (rows : List Nat) (wt : Bool) (j : Nat)
    (h1 : 1 ≤ colOnesCount X rows j) (h0 : 0 < colZerosCount X rows j) :
    0 < pOneAt X rows wt j := by
  cases wt with
  | false =>
    rw [pOneAt_unweighted]
    norm_num
  | true =>
    show 0 < -Real.logb 2 (((colOnesCount X rows j : ℝ) / (rows.length : ℝ)) ^ 2)
    have hle := colCounts_le X rows j
    have hn : 0 < rows.length := by omega
    have hlt : colOnesCount X rows j < rows.length := by omega
    have hfp : 0 < (colOnesCount X rows j : ℝ) / (rows.length : ℝ) :=
      div_pos (by exact_mod_cast h1) (by exact_mod_cast hn)
    have hfl : (colOnesCount X rows j : ℝ) / (rows.length : ℝ) < 1 :=
      (div_lt_one (by exact_mod_cast hn)).mpr (by exact_mod_cast hlt)
    have hs0 : 0 < ((colOnesCount X rows j : ℝ) / (rows.length : ℝ)) ^ 2 :=
      pow_pos hfp 2
    have hs1 : ((colOnesCount X rows j : ℝ) / (rows.length : ℝ)) ^ 2 < 1 :=
      pow_lt_one₀ hfp.le hfl (by norm_num)
    have := Real.logb_neg one_lt_two hs0 hs1
    linarith

/-- Positivity of the pZeros weight of a feature with at least one
Present and at least one Absent entry among the retained rows. -/
theorem pZeroAt_pos (X : Mat) (rows : List Nat) (wt : Bool) (j : Nat)
    (h1 : 1 ≤ colOnesCount X rows j) (h0 : 0 < colZerosCount X rows j) :
    0 < pZeroAt X rows wt j := by
  cases wt with
  | false =>
    rw [pZeroAt_unweighted]
    norm_num
  | true =>
    show 0 < -Real.logb 2 (((colZerosCount X rows j : ℝ) / (rows.length : ℝ)) ^ 2)
    have hle := colCounts_le X rows j
    have hn : 0 < rows.length := by omega
    have hlt : colZerosCount X rows j < rows.length := by omega
    have hfp : 0 < (colZerosCount X rows j : ℝ) / (rows.length : ℝ) :=
      div_pos (by exact_mod_cast h0) (by exact_mod_cast hn)
    have hfl : (colZerosCount X rows j : ℝ) / (rows.length : ℝ) < 1 :=
      (div_lt_one (by exact_mod_cast hn)).mpr (by exact_mod_cast hlt)
    have hs0 : 0 < ((colZerosCount X rows j : ℝ) / (rows.length : ℝ)) ^ 2 :=
      pow_pos hfp 2
    have hs1 : ((colZerosCount X rows j : ℝ) / (rows.length : ℝ)) ^ 2 < 1 :=
      pow_lt_one₀ hfp.le hfl (by norm_num)
    have := Real.logb_neg one_lt_two hs0 hs1
    linarith

/-- Indicator values are nonnegative. -/
theorem bInd_nonneg (b : Bool) : 0 ≤ bInd b := by
  cases b <;> simp [bInd]

/-- Positivity of the pairwise normalization factor: all summands are
nonnegative once every retained feature has a positive weight pair, and
the first cell contributes at least one strictly positive summand as
soon as it has one measured entry among the retained features. -/
theorem normFactorAt_pos (X : Mat) (st : FState) (wt : Bool) (i j : Nat)
    (hw : ∀ f ∈ st.2, 0 < pOneAt X st.1 wt f ∧ 0 < pZeroAt X st.1 wt f)
    (hm : ∃ f ∈ st.2, isMeasured (entryAt X st i f) = true) :
    0 < normFactorAt X st wt i j := by
  obtain ⟨f, hf, hmf⟩ := hm
  have e1 : ∀ x ∈ st.2.map (fun f2 => pOneAt X st.1 wt f2 * bInd (isOne (entryAt X st i f2))),
      0 ≤ x := by
    intro x hx
    obtain ⟨f2, hf2, rfl⟩ := List.mem_map.mp hx
    exact mul_nonneg (hw f2 hf2).1.le (bInd_nonneg _)
  have e2 : ∀ x ∈ st.2.map (fun f2 => pZeroAt X st.1 wt f2 * bInd (isZero (entryAt X st i f2))),
      0 ≤ x := by
    intro x hx
    obtain ⟨f2, hf2, rfl⟩ := List.mem_map.mp hx
    exact mul_nonneg (hw f2 hf2).2.le (bInd_nonneg _)
  have e3 : ∀ x ∈ st.2.map (fun f2 => pOneAt X st.1 wt f2 * bInd (isOne (entryAt X st j f2))),
      0 ≤ x := by
    intro x hx
    obtain ⟨f2, hf2, rfl⟩ := List.mem_map.mp hx
    exact mul_nonneg (hw f2 hf2).1.le (bInd_nonneg _)
  have e4 : ∀ x ∈ st.2.map (fun f2 => pZeroAt X st.1 wt f2 * bInd (isZero (entryAt X st j f2))),
      0 ≤ x := by
    intro x hx
    obtain ⟨f2, hf2, rfl⟩ := List.mem_map.mp hx
    exact mul_nonneg (hw f2 hf2).2.le (bInd_nonneg _)
  have s1 := List.sum_nonneg e1
  have s2 := List.sum_nonneg e2
  have s3 := List.sum_nonneg e3
  have s4 := List.sum_nonneg e4
  unfold normFactorAt
  cases he : entryAt X st i f with
  | missing =>
    rw [he] at hmf
    simp [isMeasured] at hmf
  | present =>
    have hterm : (0 : ℝ) < pOneAt X st.1 wt f * bInd (isOne (entryAt X st i f)) := by
      rw [he]
      simpa [isOne, bInd] using (hw f hf).1
    have hmem : pOneAt X st.1 wt f * bInd (isOne (entryAt X st i f))
        ∈ st.2.map (fun f2 => pOneAt X st.1 wt f2 * bInd (isOne (entryAt X st i f2))) :=
      List.mem_map_of_mem _ hf
    have hle := List.single_le_sum e1 _ hmem
    linarith
  | absent =>
    have hterm : (0 : ℝ) < pZeroAt X st.1 wt f * bInd (isZero (entryAt X st i f)) := by
      rw [he]
      simpa [isZero, bInd] using (hw f hf).2
    have hmem : pZeroAt X st.1 wt f * bInd (isZero (entryAt X st i f))
        ∈ st.2.map (fun f2 => pZeroAt X st.1 wt f2 * bInd (isZero (entryAt X st i f2))) :=
      List.mem_map_of_mem _ hf
    have hle := List.single_le_sum e2 _ hmem
    linarith

/-- Mirroring makes the joint matrix symmetric by construction: every
position on or above the diagonal was overwritten with the value of its
transposed position, which lies on or below the diagonal and was never
touched by the mirroring pass. -/
theorem jointM_symm (X : Mat) (st : FState) (wt : Bool) (i j : Nat) :
    jointM X st wt i j = jointM X st wt j i := by
  rcases lt_trichotomy i j with hlt | heq | hlt
  · unfold jointM
    by_cases hn : i < st.1.length ∧ j < st.1.length
    · have h1 : i < st.1.length ∧ j < st.1.length := hn
      have h2 : j < st.1.length ∧ i < st.1.length := ⟨hn.2, hn.1⟩
      rw [if_pos h1, if_pos h2, if_pos (le_of_lt hlt), if_neg (not_le.mpr hlt)]
    · have h2 : ¬(j < st.1.length ∧ i < st.1.length) := fun hc => hn ⟨hc.2, hc.1⟩
      rw [if_neg hn, if_neg h2]
  · rw [heq]
  · unfold jointM
    by_cases hn : i < st.1.length ∧ j < st.1.length
    · have h1 : i < st.1.length ∧ j < st.1.length := hn
      have h2 : j < st.1.length ∧ i < st.1.length := ⟨hn.2, hn.1⟩
      rw [if_pos h1, if_pos h2, if_neg (not_le.mpr hlt), if_pos (le_of_lt hlt)]
    · have h2 : ¬(j < st.1.length ∧ i < st.1.length) := fun hc => hn ⟨hc.2, hc.1⟩
      rw [if_neg hn, if_neg h2]

/-- Folding a drop-the-accumulator function over a list yields its value
at the final element. -/
theorem foldl_last_val (g : Nat × Nat → ℝ) (l : List (Nat × Nat)) (a : Nat × Nat) (d : ℝ) :
    (l ++ [a]).foldl (fun _ p => g p) d = g a := by
  rw [List.foldl_append]
  rfl

/-- Last pair of the visit sequence is the diagonal pair of the last
row, so the leftover normalization value is the one of that pair. -/
theorem lastNorm_eq (X : Mat) (st : FState) (wt : Bool) (h : 1 ≤ st.1.length) :
    lastNorm X st wt
      = normFactorAt X st wt (st.1.length - 1) (st.1.length - 1) := by
  obtain ⟨m, hm⟩ : ∃ m, st.1.length = m + 1 := ⟨st.1.length - 1, by omega⟩
  simp only [lastNorm, hm]
  rw [pairList, List.range_succ, List.map_append, List.map_cons, List.map_nil,
    ← List.append_assoc, foldl_last_val]
  simp

/-! Concrete inputs used by witnesses and counterexamples. -/

/-- Concrete input with two cells and one feature, Present in the first
cell and Absent in the second; filtering retains everything. -/
def Xpair : Mat := [[Entry.present], [Entry.absent]]

/-- Concrete input with one cell and one Present feature: the feature is
dropped for lack of an Absent entry, after which the row is dropped. -/
def Xone : Mat := [[Entry.present]]

/-- Concrete all-missing input with two cells and one feature. -/
def Xmiss2 : Mat := [[Entry.missing], [Entry.missing]]

/-- Concrete all-missing input with one cell and one feature. -/
def Xmiss1 : Mat := [[Entry.missing]]

/-- Concrete input with two cells and two features, each feature Present
once and Absent once; filtering retains everything. -/
def Xfull : Mat := [[Entry.present, Entry.absent], [Entry.absent, Entry.present]]

/-! Inversion of a successful run. -/

/-- Successful runs return exactly the fixed point and the matrices and
scalar built from it, and only when at least two rows were retained. -/
theorem sparseDistance_ok_inv (X : Mat) (mp mmc : Nat) (wt : Bool)
    (kx : FState) (jm sm dm : Nat → Nat → ℝ) (nf : ℝ)
    (h : sparseDistance X mp mmc wt = Except.ok (kx, jm, sm, dm, nf)) :
    kx = filterFix X mp mmc (fullState X) ∧ 2 ≤ kx.1.length
      ∧ jm = jointM X kx wt ∧ sm = simM X kx wt ∧ dm = diffM X kx wt
      ∧ nf = lastNorm X kx wt := by
  by_cases hc : (filterFix X mp mmc (fullState X)).1.length < 2
  · simp [sparseDistance, hc] at h
  · simp only [sparseDistance] at h
    rw [if_neg hc] at h
    simp only [Except.ok.injEq, Prod.mk.injEq] at h
    obtain ⟨hkx, hjm, hsm, hdm, hnf⟩ := h
    subst hkx
    exact ⟨rfl, Nat.le_of_not_lt hc, hjm.symm, hsm.symm, hdm.symm, hnf.symm⟩

/-- Failure lemma: fixed points with fewer than two retained rows make
the function raise the ValueError of source line 49. -/
theorem sparseDistance_error_of_small (X : Mat) (mp mmc : Nat) (wt : Bool)
    (h : (filterFix X mp mmc (fullState X)).1.length < 2) :
    sparseDistance X mp mmc wt = Except.error "Not enough data" := by
  simp [sparseDistance, h]

/-- Helper: the filtering loop run on an already fixed state returns it
unchanged. -/
theorem filterFix_of_fixed (X : Mat) (mp mmc : Nat) (st : FState)
    (h : filterStep X mp mmc st = st) :
    filterFix X mp mmc st = st := by
  unfold filterFix
  rw [filterFixFuel, h]
  simp

/-! Claim theorems. -/

/-- C3: whenever the filtering fixed point leaves fewer than 2 rows,
sparseDistance fails with the insufficient-data error (the ValueError
with message "Not enough data" of source line 49, which the spec calls
InsufficientDataError) and produces no result matrices. -/
theorem C3_insufficient_data (X : Mat) (mp mmc : Nat) (wt : Bool)
    (h : (filterFix X mp mmc (fullState X)).1.length < 2) :
    sparseDistance X mp mmc wt = Except.error "Not enough data" :=
  sparseDistance_error_of_small X mp mmc wt h

/-- Witness for C3 at the all-missing one-row input: filtering retains
no rows and the function fails. -/
theorem C3_insufficient_data_witness :
    (filterFix Xmiss1 1 1 (fullState Xmiss1)).1.length < 2
      ∧ sparseDistance Xmiss1 1 1 true = Except.error "Not enough data" :=
  ⟨by decide, C3_insufficient_data Xmiss1 1 1 true (by decide)⟩

/-- C4 counterexample: with minPresence 1 and minMeasurementsPerCell 0,
the all-missing two-row input reaches a fixed point with two retained
rows and zero retained features, yet sparseDistance succeeds instead of
failing with any "no features retained" error (no such error exists in
the source). -/
theorem C4_counterexample :
    (filterFix Xmiss2 1 0 (fullState Xmiss2)).1.length = 2
      ∧ (filterFix Xmiss2 1 0 (fullState Xmiss2)).2.length = 0
      ∧ (sparseDistance Xmiss2 1 0 true).isOk = true :=
  ⟨by decide, by decide, rfl⟩

/-- C4 (amended): the source has no "no features retained" failure.
Instead, when minMeasurementsPerCell is at least 1, a fixed point with
zero retained features necessarily has zero retained rows, so the run
fails with the "Not enough data" error rather than dividing by a zero
normalization factor; only minMeasurementsPerCell = 0 lets a run proceed
with zero features. -/
theorem C4_no_features_forces_error (X : Mat) (mp mmc : Nat) (wt : Bool)
    (h1 : 1 ≤ mmc)
    (h2 : (filterFix X mp mmc (fullState X)).2.length = 0) :
    (filterFix X mp mmc (fullState X)).1.length = 0
      ∧ sparseDistance X mp mmc wt = Except.error "Not enough data" := by
  have hcols : (filterFix X mp mmc (fullState X)).2 = [] :=
    List.length_eq_zero.mp h2
  have hfix := filterFix_fixed X mp mmc (fullState X)
  have hr := congrArg Prod.fst hfix
  rw [filterStep_fst, hcols] at hr
  have hempty : (filterFix X mp mmc (fullState X)).1.filter
      (fun i => decide (mmc ≤ rowMeasCount X ([] : List Nat) i)) = [] := by
    apply List.filter_eq_nil_iff.mpr
    intro i _
    simp only [rowMeasCount, List.filter_nil, List.length_nil, decide_eq_true_eq]
    omega
  rw [hempty] at hr
  have hrows : (filterFix X mp mmc (fullState X)).1 = [] := hr.symm
  constructor
  · rw [hrows]
    rfl
  · apply sparseDistance_error_of_small
    rw [hrows]
    decide

/-- Witness for the amended C4 at the one-Present-cell input: the column
is dropped first and then the row, and the run fails with the
insufficient-data error. -/
theorem C4_no_features_witness :
    (filterFix Xone 1 1 (fullState Xone)).1.length = 0
      ∧ sparseDistance Xone 1 1 true = Except.error "Not enough data" :=
  C4_no_features_forces_error Xone 1 1 true (by decide) (by decide)

/-- C5: at the filtering fixed point, every retained row has at least
minMeasurementsPerCell measured entries over the retained columns, and
every retained column has, over the retained rows, at least minPresence
Present entries and at least one Absent entry. -/
theorem C5_filter_invariant (X : Mat) (mp mmc : Nat)
    (h1 : 1 ≤ mp) (h2 : 1 ≤ mmc) :
    (∀ i ∈ (filterFix X mp mmc (fullState X)).1,
        mmc ≤ rowMeasCount X (filterFix X mp mmc (fullState X)).2 i)
      ∧ (∀ j ∈ (filterFix X mp mmc (fullState X)).2,
        mp ≤ colOnesCount X (filterFix X mp mmc (fullState X)).1 j
          ∧ 0 < colZerosCount X (filterFix X mp mmc (fullState X)).1 j) :=
  ⟨filterFix_rows_inv X mp mmc (fullState X), filterFix_cols_inv X mp mmc (fullState X)⟩

/-- Witness for C5 at a fully retained concrete input with thresholds 1. -/
theorem C5_filter_invariant_witness :
    (∀ i ∈ (filterFix Xfull 1 1 (fullState Xfull)).1,
        1 ≤ rowMeasCount Xfull (filterFix Xfull 1 1 (fullState Xfull)).2 i)
      ∧ (∀ j ∈ (filterFix Xfull 1 1 (fullState Xfull)).2,
        1 ≤ colOnesCount Xfull (filterFix Xfull 1 1 (fullState Xfull)).1 j
          ∧ 0 < colZerosCount Xfull (filterFix Xfull 1 1 (fullState Xfull)).1 j) :=
  C5_filter_invariant Xfull 1 1 (by decide) (by decide)

/-- C6 (amended): each iteration only removes rows and columns (the new
selections are sublists of the old), the loop lands on a true fixed
point, and the number of executed loop bodies is at most rows + columns
+ 2; the bound rows + columns of the claim is too small (see the
counterexample), since the source always runs one unconditional first
body and one confirming final body. -/
theorem C6_termination_bound (X : Mat) (mp mmc : Nat) :
    (∀ st : FState,
        (filterStep X mp mmc st).1.Sublist st.1
          ∧ (filterStep X mp mmc st).2.Sublist st.2)
      ∧ filterStep X mp mmc (filterFix X mp mmc (fullState X))
          = filterFix X mp mmc (fullState X)
      ∧ loopIters X mp mmc ≤ nrows X + ncols X + 2 :=
  ⟨fun st => ⟨filterStep_fst_sublist X mp mmc st, filterStep_snd_sublist X mp mmc st⟩,
    filterFix_fixed X mp mmc (fullState X), loopIters_le X mp mmc⟩

/-- C6 counterexample: on the 1 x 1 input whose only entry is Present,
the loop body runs 3 times (drop the column, drop the row, confirm),
which exceeds rows + columns = 2. -/
theorem C6_counterexample :
    loopIters Xone 1 1 = 3 ∧ ¬(loopIters Xone 1 1 ≤ nrows Xone + ncols Xone) := by
  constructor <;> decide

/-- C7: filtering is idempotent: running the filtering loop again on its
own fixed point, with the same thresholds, changes nothing. -/
theorem C7_filter_idempotent (X : Mat) (mp mmc : Nat) :
    filterFix X mp mmc (filterFix X mp mmc (fullState X))
      = filterFix X mp mmc (fullState X) :=
  filterFix_of_fixed X mp mmc (filterFix X mp mmc (fullState X))
    (filterFix_fixed X mp mmc (fullState X))

/-- Fraction of the retained rows in which a feature is Present, with
missing entries included in the denominator.  Stated from the words of
the specification, for comparison with the source-translated weights. -/
noncomputable def fracPresent (X : Mat) (rows : List Nat) (j : Nat) : ℝ :=
  (colOnesCount X rows j : ℝ) / (rows.length : ℝ)

/-- Fraction of the retained rows in which a feature is Absent, with
missing entries included in the denominator, per the specification. -/
noncomputable def fracAbsent (X : Mat) (rows : List Nat) (j : Nat) : ℝ :=
  (colZerosCount X rows j : ℝ) / (rows.length : ℝ)

/-- C8: with weighting enabled the weight pair of a feature is
(-log2(p1^2), -log2(p0^2)) for the Present and Absent fractions p1 and
p0 taken over the full retained row count, and with weighting disabled
every feature gets the constant pair (2, 2). -/
theorem C8_feature_weights (X : Mat) (rows : List Nat) (j : Nat) :
    (pOneAt X rows true j = -Real.logb 2 (fracPresent X rows j ^ 2)
      ∧ pZeroAt X rows true j = -Real.logb 2 (fracAbsent X rows j ^ 2))
      ∧ (pOneAt X rows false j = 2 ∧ pZeroAt X rows false j = 2) :=
  ⟨⟨rfl, rfl⟩, pOneAt_unweighted X rows j, pZeroAt_unweighted X rows j⟩

/-- C9: under thresholds of at least 1, at the filtering fixed point
every retained feature has strictly positive Present and Absent
fractions, hence strictly positive (finite) weights, and the pairwise
normalization factor is strictly positive for every pair of retained
cells, so neither the distance division nor the similarity division
divides by zero. -/
theorem C9_numeric_safety (X : Mat) (mp mmc : Nat) (wt : Bool)
    (h1 : 1 ≤ mp) (h2 : 1 ≤ mmc) :
    (∀ j ∈ (filterFix X mp mmc (fullState X)).2,
        0 < fracPresent X (filterFix X mp mmc (fullState X)).1 j
          ∧ 0 < fracAbsent X (filterFix X mp mmc (fullState X)).1 j
          ∧ 0 < pOneAt X (filterFix X mp mmc (fullState X)).1 wt j
          ∧ 0 < pZeroAt X (filterFix X mp mmc (fullState X)).1 wt j)
      ∧ (∀ i j, i < (filterFix X mp mmc (fullState X)).1.length →
          j < (filterFix X mp mmc (fullState X)).1.length →
          0 < normFactorAt X (filterFix X mp mmc (fullState X)) wt i j) := by
  have hcols := filterFix_cols_inv X mp mmc (fullState X)
  have hrows := filterFix_rows_inv X mp mmc (fullState X)
  have hwpos : ∀ j ∈ (filterFix X mp mmc (fullState X)).2,
      0 < pOneAt X (filterFix X mp mmc (fullState X)).1 wt j
        ∧ 0 < pZeroAt X (filterFix X mp mmc (fullState X)).1 wt j := by
    intro j hj
    obtain ⟨ho, hz⟩ := hcols j hj
    exact ⟨pOneAt_pos X _ wt j (le_trans h1 ho) hz,
      pZeroAt_pos X _ wt j (le_trans h1 ho) hz⟩
  constructor
  · intro j hj
    obtain ⟨ho, hz⟩ := hcols j hj
    have hones : 1 ≤ colOnesCount X (filterFix X mp mmc (fullState X)).1 j :=
      le_trans h1 ho
    have hle := colCounts_le X (filterFix X mp mmc (fullState X)).1 j
    have hn : 0 < (filterFix X mp mmc (fullState X)).1.length := by omega
    refine ⟨div_pos (by exact_mod_cast hones) (by exact_mod_cast hn),
      div_pos (by exact_mod_cast hz) (by exact_mod_cast hn),
      (hwpos j hj).1, (hwpos j hj).2⟩
  · intro i j hi _
    apply normFactorAt_pos X _ wt i j hwpos
    have hrmem : (filterFix X mp mmc (fullState X)).1.getD i 0
        ∈ (filterFix X mp mmc (fullState X)).1 := by
      rw [List.getD_eq_getElem _ _ hi]
      exact List.getElem_mem hi
    have hcount := hrows _ hrmem
    have hpos : 0 < rowMeasCount X (filterFix X mp mmc (fullState X)).2
        ((filterFix X mp mmc (fullState X)).1.getD i 0) := lt_of_lt_of_le h2 hcount
    rw [rowMeasCount] at hpos
    obtain ⟨f, hfmem⟩ := List.exists_mem_of_ne_nil _ (List.length_pos.mp hpos)
    obtain ⟨hfcol, hmeas⟩ := List.mem_filter.mp hfmem
    exact ⟨f, hfcol, hmeas⟩

/-- Witness for C9 at a fully retained concrete input with thresholds 1
and weighting enabled. -/
theorem C9_numeric_safety_witness :
    (∀ j ∈ (filterFix Xfull 1 1 (fullState Xfull)).2,
        0 < fracPresent Xfull (filterFix Xfull 1 1 (fullState Xfull)).1 j
          ∧ 0 < fracAbsent Xfull (filterFix Xfull 1 1 (fullState Xfull)).1 j
          ∧ 0 < pOneAt Xfull (filterFix Xfull 1 1 (fullState Xfull)).1 true j
          ∧ 0 < pZeroAt Xfull (filterFix Xfull 1 1 (fullState Xfull)).1 true j)
      ∧ (∀ i j, i < (filterFix Xfull 1 1 (fullState Xfull)).1.length →
          j < (filterFix Xfull 1 1 (fullState Xfull)).1.length →
          0 < normFactorAt Xfull (filterFix Xfull 1 1 (fullState Xfull)) true i j) :=
  C9_numeric_safety Xfull 1 1 true (by decide) (by decide)

/-- C10: the fifth element of a successful result is the single scalar
normalization value of the last cell pair visited by the nested loop,
the diagonal pair of the last retained cell, and not a per-feature or
per-cell aggregate. -/
theorem C10_last_normalization (X : Mat) (mp mmc : Nat) (wt : Bool)
    (kx : FState) (jm sm dm : Nat → Nat → ℝ) (nf : ℝ)
    (h : sparseDistance X mp mmc wt = Except.ok (kx, jm, sm, dm, nf)) :
    nf = normFactorAt X kx wt (kx.1.length - 1) (kx.1.length - 1) := by
  obtain ⟨hkx, hlen, _, _, _, hnf⟩ := sparseDistance_ok_inv X mp mmc wt kx jm sm dm nf h
  rw [hnf]
  exact lastNorm_eq X kx wt (by omega)

/-- Witness for C10 at the two-cell input. -/
theorem C10_last_normalization_witness :
    lastNorm Xpair (filterFix Xpair 1 1 (fullState Xpair)) false
      = normFactorAt Xpair (filterFix Xpair 1 1 (fullState Xpair)) false
          ((filterFix Xpair 1 1 (fullState Xpair)).1.length - 1)
          ((filterFix Xpair 1 1 (fullState Xpair)).1.length - 1) :=
  C10_last_normalization Xpair 1 1 false
    (filterFix Xpair 1 1 (fullState Xpair))
    (jointM Xpair (filterFix Xpair 1 1 (fullState Xpair)) false)
    (simM Xpair (filterFix Xpair 1 1 (fullState Xpair)) false)
    (diffM Xpair (filterFix Xpair 1 1 (fullState Xpair)) false)
    (lastNorm Xpair (filterFix Xpair 1 1 (fullState Xpair)) false) rfl

/-- C1 (amended): of the three returned matrices only the joint matrix
is symmetric; the similarity and difference matrices are returned
lower-triangular with untouched zero upper triangles (see the
counterexample), so the symmetry of all three asserted by the claim
holds only for the joint matrix. -/
theorem C1_joint_symmetry (X : Mat) (mp mmc : Nat) (wt : Bool)
    (kx : FState) (jm sm dm : Nat → Nat → ℝ) (nf : ℝ)
    (h : sparseDistance X mp mmc wt = Except.ok (kx, jm, sm, dm, nf))
    (i j : Nat) (hi : i < kx.1.length) (hj : j < kx.1.length) :
    jm i j = jm j i := by
  obtain ⟨_, _, hjm, _, _, _⟩ := sparseDistance_ok_inv X mp mmc wt kx jm sm dm nf h
  rw [hjm]
  exact jointM_symm X kx wt i j

/-- Witness for the amended C1 at the two-cell input. -/
theorem C1_joint_symmetry_witness :
    jointM Xpair (filterFix Xpair 1 1 (fullState Xpair)) false 0 1
      = jointM Xpair (filterFix Xpair 1 1 (fullState Xpair)) false 1 0 :=
  C1_joint_symmetry Xpair 1 1 false
    (filterFix Xpair 1 1 (fullState Xpair))
    (jointM Xpair (filterFix Xpair 1 1 (fullState Xpair)) false)
    (simM Xpair (filterFix Xpair 1 1 (fullState Xpair)) false)
    (diffM Xpair (filterFix Xpair 1 1 (fullState Xpair)) false)
    (lastNorm Xpair (filterFix Xpair 1 1 (fullState Xpair)) false) rfl
    0 1 (by decide) (by decide)

/-- C2: in the returned similarity and difference matrices every strict
upper-triangle entry is zero, because the nested loop writes only pairs
with row index at least the column index and only the joint matrix is
mirrored. -/
theorem C2_upper_triangle_zero (X : Mat) (mp mmc : Nat) (wt : Bool)
    (kx : FState) (jm sm dm : Nat → Nat → ℝ) (nf : ℝ)
    (h : sparseDistance X mp mmc wt = Except.ok (kx, jm, sm, dm, nf))
    (i j : Nat) (hij : i < j) (hj : j < kx.1.length) :
    sm i j = 0 ∧ dm i j = 0 := by
  obtain ⟨_, _, _, hsm, hdm, _⟩ := sparseDistance_ok_inv X mp mmc wt kx jm sm dm nf h
  have hcond : ¬(i < kx.1.length ∧ j ≤ i) := fun hc => absurd hij (not_lt.mpr hc.2)
  constructor
  · rw [hsm]
    unfold simM
    rw [if_neg hcond]
  · rw [hdm]
    unfold diffM
    rw [if_neg hcond]

/-- Witness for C2 at the two-cell input, at the strict upper position
(0, 1). -/
theorem C2_upper_triangle_zero_witness :
    simM Xpair (filterFix Xpair 1 1 (fullState Xpair)) false 0 1 = 0
      ∧ diffM Xpair (filterFix Xpair 1 1 (fullState Xpair)) false 0 1 = 0 :=
  C2_upper_triangle_zero Xpair 1 1 false
    (filterFix Xpair 1 1 (fullState Xpair))
    (jointM Xpair (filterFix Xpair 1 1 (fullState Xpair)) false)
    (simM Xpair (filterFix Xpair 1 1 (fullState Xpair)) false)
    (diffM Xpair (filterFix Xpair 1 1 (fullState Xpair)) false)
    (lastNorm Xpair (filterFix Xpair 1 1 (fullState Xpair)) false) rfl
    0 1 (by decide) (by decide)

/-- C1 counterexample: the two-cell input is accepted by sparseDistance,
yet its returned difference matrix is not symmetric: the computed lower
entry at (1, 0) is 1 while the never-written upper entry at (0, 1) is
still 0, refuting the symmetry of all three returned matrices. -/
theorem C1_counterexample :
    (sparseDistance Xpair 1 1 false).isOk = true
      ∧ diffM Xpair (filterFix Xpair 1 1 (fullState Xpair)) false 1 0
          ≠ diffM Xpair (filterFix Xpair 1 1 (fullState Xpair)) false 0 1 := by
  refine ⟨rfl, ?_⟩
  have hst : filterFix Xpair 1 1 (fullState Xpair) = ([0, 1], [0]) := by decide
  rw [hst]
  have h10 : diffM Xpair ([0, 1], [0]) false 1 0 = 1 := by
    simp [diffM, diffValAt, rawDistAt, normFactorAt, entryAt, entry, Xpair, isOne, isZero,
      bInd, pOneAt_unweighted, pZeroAt_unweighted, List.getD_cons_zero, List.getD_cons_succ]
  have h01 : diffM Xpair ([0, 1], [0]) false 0 1 = 0 := by
    simp [diffM]
  rw [h10, h01]
  norm_num
